import Mathlib

/-!
Verification of the s-exp repository (src/src/lib.rs): an S-expression
tokenizer, recursive-descent parser and printer.

The Rust code works on `&[u8]` byte buffers with a mutable `offset` cursor.
The shallow embedding below represents byte buffers as `List Nat` (byte
values), and each Rust function that mutates `offset` becomes a Lean
function returning its result together with the final offset.  Loops that
advance the cursor are written as structural recursion on the remaining
suffix of the buffer (`src.drop offset`), which is exactly the part of the
buffer the Rust loop can still inspect.
-/

/-- Model of `f64` values (Rust `f64`): IEEE-754 binary64 abstracted as
either a NaN or a (finite or overflowing) numeric value kept as an exact
rational.  Signed zeros and infinities are not distinguished; IEEE
comparison on them agrees with rational comparison, and no claim depends
on them.  NaN is kept separate because IEEE equality treats it specially. -/
inductive F64 where
  | nan : F64
  | num (v : ℚ) : F64
deriving DecidableEq

/-- IEEE-754 equality on the `F64` model: any comparison involving NaN is
false; numeric values compare by value (this is Rust's `f0 == f1` on `f64`). -/
def F64.ieeeEq : F64 → F64 → Bool
  | .num a, .num b => a == b
  | _, _ => false

/-- `pub struct ParseError { message, offset }` from src/src/lib.rs. -/
structure ParseError where
  message : String
  offset : Nat
deriving DecidableEq

/-- `pub enum ParseResult<T> { PROk(T), PRErr(ParseError) }` from src/src/lib.rs. -/
inductive ParseResult (T : Type) where
  | PROk (t : T)
  | PRErr (e : ParseError)
deriving DecidableEq

export ParseResult (PROk PRErr)

/-- `pub enum Exp` from src/src/lib.rs.  `Int` carries an `i64` value
(modelled as a mathematical integer; the parser only ever produces values
in the 64-bit signed range), `Float` an `f64`, and `String`/`Symbol` own
byte text (alt_std strings are byte vectors). -/
inductive Exp where
  | Bool (b : Bool)
  | Char (c : Char)
  | Int (i : Int)
  | Float (f : F64)
  | String (s : List Nat)
  | Symbol (s : List Nat)
  | List (l : List Exp)

mutual

/-- `impl PartialEq<Exp> for Exp`, `fn eq`, from src/src/lib.rs:
variant-exact structural equality; `Float` compares by IEEE equality;
`List` compares by equal length and pairwise equality (the source's length
check plus indexed loop is written here as simultaneous recursion over
both lists, which computes the same Bool). -/
def expEq : Exp → Exp → Bool
  | .Bool b0, .Bool b1 => b0 == b1
  | .Char c0, .Char c1 => c0 == c1
  | .Int i0, .Int i1 => i0 == i1
  | .Float f0, .Float f1 => F64.ieeeEq f0 f1
  | .String s0, .String s1 => s0 == s1
  | .Symbol s0, .Symbol s1 => s0 == s1
  | .List s, .List o => expEqList s o
  | _, _ => false

/-- The element-wise loop of the source's `List` equality case. -/
def expEqList : List Exp → List Exp → Bool
  | [], [] => true
  | a :: as, b :: bs => expEq a b && expEqList as bs
  | _, _ => false

end

/-- `fn peek(src, offset)` from src/src/lib.rs: the byte at `offset`, or
none past the end of the buffer. -/
def peek (src : List Nat) (offset : Nat) : Option Nat :=
  src[offset]?

/-- `fn isDigit(c)` from src/src/lib.rs: ASCII `0`-`9`. -/
def isDigit (c : Nat) : Bool :=
  48 ≤ c && c ≤ 57

/-- `fn isAlpha(c)` from src/src/lib.rs: ASCII `a`-`z` or `A`-`Z`. -/
def isAlpha (c : Nat) : Bool :=
  (97 ≤ c && c ≤ 122) || (65 ≤ c && c ≤ 90)

/-- `fn isOp(c)` from src/src/lib.rs: the fixed operator-character set
`+ - * / % ~ ! @ # $ ^ & | _ = < > ? . : \ '` (byte values below). -/
def isOp (c : Nat) : Bool :=
  c == 43 || c == 45 || c == 42 || c == 47 || c == 37 || c == 126 ||
  c == 33 || c == 64 || c == 35 || c == 36 || c == 94 || c == 38 ||
  c == 124 || c == 95 || c == 61 || c == 60 || c == 62 || c == 63 ||
  c == 46 || c == 58 || c == 92 || c == 39

/-- `fn isWS(c)` from src/src/lib.rs: space, newline, tab. -/
def isWS (c : Nat) : Bool :=
  c == 32 || c == 10 || c == 9

/-- `fn isSeparator(c)` from src/src/lib.rs: `( ) { } , ' "` or whitespace. -/
def isSeparator (c : Nat) : Bool :=
  c == 40 || c == 41 || c == 123 || c == 125 || c == 44 || c == 39 ||
  c == 34 || isWS c

/-- The accumulating guard of `parseNumber`'s loop in src/src/lib.rs:
`'+' | '-' | '.' | 'e' | 'E'` or a digit. -/
def numChar (c : Nat) : Bool :=
  c == 43 || c == 45 || c == 46 || c == 101 || c == 69 || isDigit c

/-- The loop of `pub fn parseNumber` in src/src/lib.rs, recursing over the
remaining buffer suffix.  `offset` tracks the absolute cursor, `s` the
accumulated text.  `.ok (s, offset)` is the loop's `break` (separator or
end of input reached), `.error offset` the loop's early error return
(`"Unexpected end of stream (sign)"` at the offending offset). -/
def parseNumberLoop : List Nat → Nat → List Nat → Except Nat (List Nat × Nat)
  | c :: r, offset, s =>
    if numChar c then parseNumberLoop r (offset + 1) (s ++ [c])
    else if isSeparator c then .ok (s, offset)
    else .error offset
  | [], offset, s => .ok (s, offset)

/-- Decimal digits (most significant first) of a natural number, as bytes.
The structural fuel argument only keeps the recursion (on `n / 10`)
syntactic; `natDecimalAux f n` has its intended value whenever `n ≤ f`
(shown by `natDecimal_eq` below), and `natDecimal` supplies `f = n`. -/
def natDecimalAux : Nat → Nat → List Nat
  | 0, n => [48 + n]
  | f + 1, n => if n < 10 then [48 + n] else natDecimalAux f (n / 10) ++ [48 + n % 10]

def natDecimal (n : Nat) : List Nat :=
  natDecimalAux n n

theorem natDecimalAux_irrel : ∀ (n f f2 : Nat), n ≤ f → n ≤ f2 →
    natDecimalAux f n = natDecimalAux f2 n := by
  intro n
  induction n using Nat.strong_induction_on with
  | _ n ih =>
    intro f f2 hf hf2
    match f, f2 with
    | 0, 0 => rfl
    | 0, g + 1 =>
      have hn : n = 0 := by omega
      subst hn
      rw [natDecimalAux, natDecimalAux, if_pos (by omega)]
    | g + 1, 0 =>
      have hn : n = 0 := by omega
      subst hn
      rw [natDecimalAux, natDecimalAux, if_pos (by omega)]
    | g + 1, g2 + 1 =>
      rw [natDecimalAux, natDecimalAux]
      by_cases h10 : n < 10
      · rw [if_pos h10, if_pos h10]
      · rw [if_neg h10, if_neg h10]
        have hlt : n / 10 < n := Nat.div_lt_self (by omega) (by omega)
        rw [ih (n / 10) hlt g g2 (by omega) (by omega)]

/-- The recursion `natDecimal` actually performs. -/
theorem natDecimal_eq (n : Nat) :
    natDecimal n = if n < 10 then [48 + n] else natDecimal (n / 10) ++ [48 + n % 10] := by
  cases hn : n with
  | zero => rfl
  | succ m =>
    rw [natDecimal, natDecimalAux]
    by_cases h10 : m + 1 < 10
    · rw [if_pos h10, if_pos h10]
    · rw [if_neg h10, if_neg h10, natDecimal]
      rw [natDecimalAux_irrel ((m + 1) / 10) m ((m + 1) / 10)
        (by omega) (Nat.le_refl _)]

/-- Modelled from Rust std's `Display` for `i64` (library code outside this
repository): plain decimal text, `-`-prefixed when negative. -/
def intDecimal (i : Int) : List Nat :=
  if i < 0 then 45 :: natDecimal (-i).toNat else natDecimal i.toNat

/-- Numeric value of a run of ASCII digit bytes (the usual left fold). -/
def digitsVal (s : List Nat) : Nat :=
  s.foldl (fun a c => 10 * a + (c - 48)) 0

/-- Splits one optional leading sign byte off a numeric text, returning the
sign as `1` or `-1`. -/
def splitSign (s : List Nat) : Int × List Nat :=
  match s with
  | [] => (1, [])
  | c :: r => if c = 43 then (1, r) else if c = 45 then (-1, r) else (1, s)

/-- Modelled from Rust core's `FromStr` for `i64` (library code outside
this repository, called by `parseNumber` as `str::parse::<i64>`): an
optional single sign, then one or more ASCII digits, with the value in the
signed 64-bit range; anything else fails.  (Rust checks overflow digit by
digit; on all-digit text that is equivalent to this whole-value range
check.) -/
def parseI64 (s : List Nat) : Option Int :=
  if (splitSign s).2 ≠ [] ∧ (splitSign s).2.all isDigit then
    if -(2 ^ 63) ≤ (splitSign s).1 * (digitsVal (splitSign s).2 : Int) ∧
        (splitSign s).1 * (digitsVal (splitSign s).2 : Int) < 2 ^ 63 then
      some ((splitSign s).1 * (digitsVal (splitSign s).2 : Int))
    else none
  else none

/-- Modelled from Rust core's `FromStr` for `f64` (library code outside
this repository, called by `parseNumber` as `str::parse::<f64>`),
restricted to the alphabet `parseNumber` can accumulate (digits and
`+ - . e E`; the `inf`/`NaN` spellings Rust also accepts can never reach
this call): optional sign, then a mantissa of digits containing at most
one `.` and at least one digit, then an optional `e`/`E` exponent with an
optional sign and at least one digit.  The value is kept as an exact
rational; rounding to the nearest double (and overflow to infinity) is not
modelled, which no claim depends on. -/
def parseF64Mantissa (s : List Nat) : Option ℚ :=
  let d1 := s.takeWhile isDigit
  match s.dropWhile isDigit with
  | [] => if d1 = [] then none else some (digitsVal d1)
  | 46 :: r2 =>
    if r2.all isDigit ∧ (d1 ≠ [] ∨ r2 ≠ []) then
      some ((digitsVal d1 : ℚ) + (digitsVal r2 : ℚ) / (10 : ℚ) ^ r2.length)
    else none
  | _ => none

def parseF64 (s : List Nat) : Option F64 :=
  let p := splitSign s
  let mant := p.2.takeWhile fun c => c ≠ 101 ∧ c ≠ 69
  match parseF64Mantissa mant with
  | none => none
  | some m =>
    match p.2.dropWhile fun c => c ≠ 101 ∧ c ≠ 69 with
    | [] => some (.num (p.1 * m))
    | _ :: expPart =>
      let q := splitSign expPart
      if q.2 ≠ [] ∧ q.2.all isDigit then
        some (.num ((p.1 : ℚ) * m * (10 : ℚ) ^ (q.1 * (digitsVal q.2 : Int))))
      else none

/-- `pub fn parseNumber(src, &mut offset)` from src/src/lib.rs: greedily
scan, then try the accumulated text as `i64`, then as `f64`, else error
`"invalid number format"` at the current offset. -/
def parseNumber (src : List Nat) (offset : Nat) : ParseResult Exp × Nat :=
  match parseNumberLoop (src.drop offset) offset [] with
  | .error p => (PRErr ⟨"Unexpected end of stream (sign)", p⟩, p)
  | .ok (s, p) =>
    match parseI64 s with
    | some i => (PROk (Exp.Int i), p)
    | none =>
      match parseF64 s with
      | some f => (PROk (Exp.Float f), p)
      | none => (PRErr ⟨"invalid number format", p⟩, p)

/-- The loop of `fn parseString` in src/src/lib.rs, entered after the
opening quote has been consumed: each iteration is the source's
`getchar` — consume the byte at the cursor, stop with the accumulated text
on `"`, error `"Unexpected end of stream (string)"` at end of input. -/
def parseStringLoop : List Nat → Nat → List Nat → ParseResult (List Nat) × Nat
  | c :: r, offset, s =>
    if c = 34 then (PROk s, offset + 1)
    else parseStringLoop r (offset + 1) (s ++ [c])
  | [], offset, _ => (PRErr ⟨"Unexpected end of stream (string)", offset⟩, offset)

/-- `fn parseString(src, &mut offset)` from src/src/lib.rs: requires a
leading `"` (else error `"Expected \""` at the cursor), consumes it, then
runs the verbatim loop above (no escape processing). -/
def parseString (src : List Nat) (offset : Nat) : ParseResult (List Nat) × Nat :=
  match peek src offset with
  | some c =>
    if c = 34 then parseStringLoop (src.drop (offset + 1)) (offset + 1) []
    else (PRErr ⟨"Expected \"", offset⟩, offset)
  | none => (PRErr ⟨"Expected \"", offset⟩, offset)

/-- The loop of `fn parseSymbol` in src/src/lib.rs: peek; while the byte is
alpha, operator or digit, accumulate and consume; stop (without consuming)
otherwise or at end of input. -/
def parseSymbolLoop : List Nat → Nat → List Nat → List Nat × Nat
  | c :: r, offset, s =>
    if isAlpha c || isOp c || isDigit c then parseSymbolLoop r (offset + 1) (s ++ [c])
    else (s, offset)
  | [], offset, s => (s, offset)

/-- `fn parseSymbol(src, &mut offset)` from src/src/lib.rs: the first byte
must be alpha or operator (else error `"Expected alpha/operator"` at the
cursor); then the loop above consumes the maximal run (re-examining the
first byte, as the source's loop does). -/
def parseSymbol (src : List Nat) (offset : Nat) : ParseResult (List Nat) × Nat :=
  match peek src offset with
  | some c =>
    if isAlpha c || isOp c then
      let p := parseSymbolLoop (src.drop offset) offset []
      (PROk p.1, p.2)
    else (PRErr ⟨"Expected alpha/operator", offset⟩, offset)
  | none => (PRErr ⟨"Expected alpha/operator", offset⟩, offset)

/-- The loop of `fn skipWS` in src/src/lib.rs, over the remaining suffix. -/
def skipWSAux : List Nat → Nat → Nat
  | c :: r, offset => if isWS c then skipWSAux r (offset + 1) else offset
  | [], offset => offset

/-- `fn skipWS(src, &mut offset)` from src/src/lib.rs: advance the cursor
past whitespace; returns the final offset. -/
def skipWS (src : List Nat) (offset : Nat) : Nat :=
  skipWSAux (src.drop offset) offset

/-- The wrapping of a `parseString` result done inline in `fn parseToken`
(src/src/lib.rs): success becomes `Exp::String`, errors pass through. -/
def stringResult (src : List Nat) (offset : Nat) : ParseResult Exp × Nat :=
  match parseString src offset with
  | (PROk r, p) => (PROk (Exp.String r), p)
  | (PRErr e, p) => (PRErr e, p)

/-- The wrapping of a `parseSymbol` result done inline in `fn parseToken`
(src/src/lib.rs): success becomes `Exp::Symbol`, errors pass through. -/
def symbolResult (src : List Nat) (offset : Nat) : ParseResult Exp × Nat :=
  match parseSymbol src offset with
  | (PROk r, p) => (PROk (Exp.Symbol r), p)
  | (PRErr e, p) => (PRErr e, p)

/-- The lookahead guard of `fn parseToken`'s number branch in
src/src/lib.rs: a digit, or `+`/`-` immediately followed by a digit. -/
def numDispatch (src : List Nat) (offset : Nat) (c : Nat) : Bool :=
  isDigit c ||
  ((c == 43 || c == 45) &&
    (match peek src (offset + 1) with
     | some c2 => isDigit c2
     | none => false))

mutual

/-- `fn parseToken(src, &mut offset)` from src/src/lib.rs: single-byte
lookahead dispatch to the string, number or symbol tokenizer, or the list
parser, in the source's guard order.  `parseToken` and `parseList` are
mutually recursive in the source; the embedding adds an explicit fuel
argument, decremented on every call, solely to make the recursion
structural; `none` means the fuel ran out (which the lemmas below show
never happens when the fuel is at least `4 * src.length + 4`). -/
def parseTokenF : Nat → List Nat → Nat → Option (ParseResult Exp × Nat)
  | 0, _, _ => none
  | f + 1, src, offset =>
    match peek src offset with
    | some c =>
      if c = 34 then some (stringResult src offset)
      else if numDispatch src offset c then some (parseNumber src offset)
      else if isAlpha c || isOp c then some (symbolResult src offset)
      else if c = 40 then parseListF f src offset
      else some (PRErr ⟨"unexpected char (token)", offset⟩, offset)
    | none => some (PRErr ⟨"unexpected end of stream (token)", offset⟩, offset)

/-- `fn parseList(src, &mut offset)` from src/src/lib.rs, entry: `getchar`
must yield `(` (otherwise the corresponding errors, with the source's
offsets: the mismatch error is raised after the byte was consumed); then
the element loop `parseListGoF` runs with an empty element vector. -/
def parseListF : Nat → List Nat → Nat → Option (ParseResult Exp × Nat)
  | 0, _, _ => none
  | f + 1, src, offset =>
    match peek src offset with
    | some c =>
      if c = 40 then parseListGoF f src (offset + 1) []
      else some (PRErr ⟨"unexpected character (list)", offset + 1⟩, offset + 1)
    | none => some (PRErr ⟨"unexpected end of stream (list)", offset⟩, offset)

/-- The element loop of `fn parseList` in src/src/lib.rs: skip whitespace;
on `)` consume it and return the collected elements; at end of input error
`"unexpected end of stream (list)"`; otherwise parse one element through
`parseToken`, push it onto `cells`, and repeat. -/
def parseListGoF : Nat → List Nat → Nat → List Exp → Option (ParseResult Exp × Nat)
  | 0, _, _, _ => none
  | f + 1, src, offset, cells =>
    let o1 := skipWS src offset
    match peek src o1 with
    | some c =>
      if c = 41 then some (PROk (Exp.List cells), o1 + 1)
      else
        match parseTokenF f src o1 with
        | some (PROk e, o2) => parseListGoF f src o2 (cells ++ [e])
        | some (PRErr err, o2) => some (PRErr err, o2)
        | none => none
    | none => some (PRErr ⟨"unexpected end of stream (list)", o1⟩, o1)

end

/-- Fuel-free `fn parseToken`: the fuel `4 * src.length + 4` is enough for
any input (shown where needed by the lemmas below); the default value on
fuel exhaustion is a model artifact and is never produced at this fuel. -/
def parseToken (src : List Nat) (offset : Nat) : ParseResult Exp × Nat :=
  (parseTokenF (4 * src.length + 4) src offset).getD
    (PRErr ⟨"fuel exhausted (model artifact)", offset⟩, offset)

/-- `pub fn fromSExp(src)` from src/src/lib.rs: start the cursor at 0, skip
leading whitespace, parse one token; the final offset is local to the
function and discarded. -/
def fromSExp (src : List Nat) : ParseResult Exp :=
  (parseToken src (skipWS src 0)).1

/-- UTF-8 encoding of a Unicode scalar value, used only to model Rust's
`format!("{}", c)` for the `Char` variant of the printer (never produced by
the parser, and excluded from every round-trip statement). -/
def utf8Encode (c : Nat) : List Nat :=
  if c < 128 then [c]
  else if c < 2048 then [192 + c / 64, 128 + c % 64]
  else if c < 65536 then [224 + c / 4096, 128 + c / 64 % 64, 128 + c % 64]
  else [240 + c / 262144, 128 + c / 4096 % 64, 128 + c / 64 % 64, 128 + c % 64]

/-- Number of decimal scalings needed to clear the denominator of `v`,
searched up to a fuel bound (ample for any value an `f64` can hold). -/
def decScale : ℚ → Nat → Nat
  | _, 0 => 0
  | v, k + 1 => if v.den = 1 then 0 else decScale (v * 10) k + 1

/-- Exactly `k` decimal digit bytes of `n`, most significant first,
zero-padded on the left. -/
def natDecimalPad : Nat → Nat → List Nat
  | 0, _ => []
  | k + 1, n => natDecimalPad k (n / 10) ++ [48 + n % 10]

/-- Modelled from Rust std's `Display` for `f64` (library code outside this
repository): NaN prints as `NaN`; an integral value prints as a plain
decimal integer with no decimal point (Rust prints `1.0_f64` as `1`); a
non-integral value prints sign, integer part, `.`, and its fractional
digits.  (Real `f64` output is the shortest decimal that reads back to the
same double; on this model's exact rationals the terminating expansion is
the faithful counterpart.  Only the NaN and integral cases are ever used
in the development: the round-trip theorems exclude `Float` entirely.) -/
def formatF64 : F64 → List Nat
  | .nan => [78, 97, 78]
  | .num v =>
    if v.den = 1 then intDecimal v.num
    else
      let k := decScale v 1200
      let m := v * (10 : ℚ) ^ k
      let sign : List Nat := if v < 0 then [45] else []
      sign ++ natDecimal (m.num.natAbs / 10 ^ k) ++ 46 ::
        natDecimalPad k (m.num.natAbs % 10 ^ k)

mutual

/-- `pub fn toString(&self)` from src/src/lib.rs, the printer: `Bool` and
`Char` by Rust `Display`; `Int`/`Float` as decimal text; `String` wrapped
in double quotes with the bytes copied verbatim (no escaping); `Symbol`
verbatim; `List` as `(`, the space-separated elements, `)`. -/
def expToString : Exp → List Nat
  | .Bool b => if b then [116, 114, 117, 101] else [102, 97, 108, 115, 101]
  | .Char c => utf8Encode c.toNat
  | .Int i => intDecimal i
  | .Float f => formatF64 f
  | .String s => 34 :: s ++ [34]
  | .Symbol s => s
  | .List l => 40 :: printInner l ++ [41]

/-- The element loop of the printer's `List` case in src/src/lib.rs:
each element's text, with a single space after every element but the last. -/
def printInner : List Exp → List Nat
  | [] => []
  | [e] => expToString e
  | e :: l => expToString e ++ 32 :: printInner l

end

mutual

/-- No `Bool` or `Char` variant anywhere in the tree (claim C8's invariant). -/
def noBoolChar : Exp → Bool
  | .Bool _ => false
  | .Char _ => false
  | .List l => noBoolCharL l
  | _ => true

def noBoolCharL : List Exp → Bool
  | [] => true
  | e :: l => noBoolChar e && noBoolCharL l

end

mutual

/-- No `Float` carrying NaN anywhere in the tree (claim C10). -/
def noNaN : Exp → Bool
  | .Float .nan => false
  | .List l => noNaNL l
  | _ => true

def noNaNL : List Exp → Bool
  | [] => true
  | e :: l => noNaN e && noNaNL l

end

/-- A symbol text the printer emits as a re-parseable symbol token:
nonempty, starting with an alpha or operator byte, continuing with alpha,
operator or digit bytes, and not starting with `+`/`-` followed by a digit
(which the dispatcher would route to the number tokenizer). -/
def goodSymbol : List Nat → Bool
  | [] => false
  | c :: r =>
    (isAlpha c || isOp c) && r.all (fun d => isAlpha d || isOp d || isDigit d) &&
      !((c == 43 || c == 45) &&
        (match r with | d :: _ => isDigit d | [] => false))

mutual

/-- Trees for which printing then parsing is proved to reproduce the tree:
no `Bool`, `Char` or `Float` variant anywhere; `Int` values in the signed
64-bit range (automatic for Rust's `i64`); `String` values without an
embedded quote byte; `Symbol` values that are well-formed symbol tokens. -/
def goodTree : Exp → Bool
  | .Bool _ => false
  | .Char _ => false
  | .Float _ => false
  | .Int i => decide (-(2 ^ 63) ≤ i) && decide (i < 2 ^ 63)
  | .String s => s.all fun c => c ≠ 34
  | .Symbol s => goodSymbol s
  | .List l => goodTreeL l

def goodTreeL : List Exp → Bool
  | [] => true
  | e :: l => goodTree e && goodTreeL l

end

mutual

/-- Trees built from the `List` constructor alone (claim C4's nesting
statement). -/
def listOnly : Exp → Bool
  | .List l => listOnlyL l
  | _ => false

def listOnlyL : List Exp → Bool
  | [] => true
  | e :: l => listOnly e && listOnlyL l

end

mutual

/-- Fuel sufficient for `parseTokenF` to parse the printed form of a tree
(one unit per dispatcher/list-parser call frame; see the fuel accounting in
`parsePrintAux`). -/
def needE : Exp → Nat
  | .List l => needL l + 2
  | _ => 1

def needL : List Exp → Nat
  | [] => 1
  | e :: l => needE e + needL l + 1

end

theorem peek_eq_head_drop : ∀ (src : List Nat) (o : Nat), peek src o = (src.drop o).head? := by
  intro src
  induction src with
  | nil => intro o; simp [peek]
  | cons c r ih =>
    intro o
    cases o with
    | zero => simp [peek]
    | succ n => simp only [peek, List.getElem?_cons_succ, List.drop_succ_cons] at ih ⊢; exact ih n

theorem drop_succ_of_drop_cons {src : List Nat} {o c : Nat} {r : List Nat}
    (h : src.drop o = c :: r) : src.drop (o + 1) = r := by
  have h2 : src.drop (o + 1) = (src.drop o).drop 1 := by
    rw [List.drop_drop]
  rw [h2, h]
  rfl

theorem drop_add (src : List Nat) (o k : Nat) : src.drop (o + k) = (src.drop o).drop k := by
  rw [List.drop_drop, Nat.add_comm]

theorem isDigit_eq (c : Nat) : isDigit c = true ↔ 48 ≤ c ∧ c ≤ 57 := by
  simp [isDigit]

theorem isAlpha_eq (c : Nat) : isAlpha c = true ↔ (97 ≤ c ∧ c ≤ 122) ∨ (65 ≤ c ∧ c ≤ 90) := by
  simp [isAlpha]

theorem isOp_eq (c : Nat) : isOp c = true ↔
    c = 43 ∨ c = 45 ∨ c = 42 ∨ c = 47 ∨ c = 37 ∨ c = 126 ∨ c = 33 ∨ c = 64 ∨
    c = 35 ∨ c = 36 ∨ c = 94 ∨ c = 38 ∨ c = 124 ∨ c = 95 ∨ c = 61 ∨ c = 60 ∨
    c = 62 ∨ c = 63 ∨ c = 46 ∨ c = 58 ∨ c = 92 ∨ c = 39 := by
  simp only [isOp, Bool.or_eq_true, beq_iff_eq]
  omega

theorem isWS_eq (c : Nat) : isWS c = true ↔ c = 32 ∨ c = 10 ∨ c = 9 := by
  simp only [isWS, Bool.or_eq_true, beq_iff_eq]
  omega

theorem isSeparator_eq (c : Nat) : isSeparator c = true ↔
    c = 40 ∨ c = 41 ∨ c = 123 ∨ c = 125 ∨ c = 44 ∨ c = 39 ∨ c = 34 ∨
    c = 32 ∨ c = 10 ∨ c = 9 := by
  simp only [isSeparator, isWS, Bool.or_eq_true, beq_iff_eq]
  omega

theorem numChar_eq (c : Nat) : numChar c = true ↔
    c = 43 ∨ c = 45 ∨ c = 46 ∨ c = 101 ∨ c = 69 ∨ (48 ≤ c ∧ c ≤ 57) := by
  simp only [numChar, isDigit, Bool.or_eq_true, Bool.and_eq_true, beq_iff_eq, decide_eq_true_eq]
  omega

/-- A separator byte never continues a numeric literal. -/
theorem sep_not_numChar {c : Nat} (h : isSeparator c = true) : numChar c = false := by
  rw [isSeparator_eq] at h
  rw [Bool.eq_false_iff, Ne, numChar_eq]
  omega

/-- A separator byte other than the apostrophe never continues a symbol. -/
theorem sep_not_symChar {c : Nat} (h : isSeparator c = true) (h2 : isOp c = false) :
    (isAlpha c || isOp c || isDigit c) = false := by
  rw [isSeparator_eq] at h
  rw [Bool.eq_false_iff] at h2 ⊢
  rw [Ne, isOp_eq] at h2
  simp only [ne_eq, Bool.or_eq_true, isAlpha_eq, isOp_eq, isDigit_eq]
  omega

/-- A separator byte is not a digit. -/
theorem sep_not_digit {c : Nat} (h : isSeparator c = true) : isDigit c = false := by
  rw [isSeparator_eq] at h
  rw [Bool.eq_false_iff, Ne, isDigit_eq]
  omega

theorem natDecimal_ne_nil (n : Nat) : natDecimal n ≠ [] := by
  rw [natDecimal_eq]
  split <;> simp

theorem natDecimal_digits : ∀ n, (natDecimal n).all isDigit = true := by
  intro n
  induction n using Nat.strong_induction_on with
  | _ n ih =>
    rw [natDecimal_eq]
    split
    · simp only [List.all_cons, List.all_nil, Bool.and_true]
      rw [isDigit_eq]
      omega
    · rename_i h
      rw [List.all_append]
      refine Bool.and_eq_true_iff.mpr ⟨ih _ (Nat.div_lt_self (by omega) (by omega)), ?_⟩
      simp only [List.all_cons, List.all_nil, Bool.and_true]
      rw [isDigit_eq]
      have := Nat.mod_lt n (y := 10) (by omega)
      omega

theorem natDecimal_head : ∀ n, ∃ c r, natDecimal n = c :: r ∧ isDigit c = true := by
  intro n
  induction n using Nat.strong_induction_on with
  | _ n ih =>
    rw [natDecimal_eq]
    split
    · exact ⟨48 + n, [], rfl, by rw [isDigit_eq]; omega⟩
    · rename_i h
      obtain ⟨c, r, hcr, hc⟩ := ih (n / 10) (Nat.div_lt_self (by omega) (by omega))
      exact ⟨c, r ++ [48 + n % 10], by rw [hcr]; rfl, hc⟩

theorem digitsVal_append_one (a : List Nat) (c : Nat) :
    digitsVal (a ++ [c]) = 10 * digitsVal a + (c - 48) := by
  simp [digitsVal, List.foldl_append]

theorem digitsVal_natDecimal : ∀ n, digitsVal (natDecimal n) = n := by
  intro n
  induction n using Nat.strong_induction_on with
  | _ n ih =>
    rw [natDecimal_eq]
    split
    · simp [digitsVal]
    · rename_i h
      rw [digitsVal_append_one, ih (n / 10) (Nat.div_lt_self (by omega) (by omega))]
      omega

/-- Evaluation of the modelled `i64` parse on decomposed sign/digit text. -/
theorem parseI64_eval {s : List Nat} {sg : Int} {ds : List Nat}
    (hsplit : splitSign s = (sg, ds)) (hne : ds ≠ []) (hdig : ds.all isDigit = true) :
    parseI64 s =
      if -(2 ^ 63) ≤ sg * (digitsVal ds : Int) ∧ sg * (digitsVal ds : Int) < 2 ^ 63 then
        some (sg * (digitsVal ds : Int))
      else none := by
  rw [parseI64, hsplit]
  simp [hne, hdig]

/-- Rust std's `Display` for `i64` re-parses to the same value under Rust
core's `FromStr` for `i64` (both modelled above), for in-range values. -/
theorem parseI64_intDecimal {i : Int} (h1 : -(2 ^ 63) ≤ i) (h2 : i < 2 ^ 63) :
    parseI64 (intDecimal i) = some i := by
  by_cases hi : i < 0
  · have hval := digitsVal_natDecimal (-i).toNat
    have htn : (((-i).toNat : Int)) = -i := Int.toNat_of_nonneg (by omega)
    have hs : splitSign (intDecimal i) = (-1, natDecimal (-i).toNat) := by
      rw [intDecimal, if_pos hi, splitSign]
      norm_num
    rw [parseI64_eval hs (natDecimal_ne_nil _) (natDecimal_digits _), hval, htn]
    rw [if_pos (by omega)]
    congr 1
    omega
  · obtain ⟨c, r, hcr, hc⟩ := natDecimal_head i.toNat
    rw [isDigit_eq] at hc
    have hval := digitsVal_natDecimal i.toNat
    have htn : ((i.toNat : Int)) = i := Int.toNat_of_nonneg (by omega)
    have hs : splitSign (intDecimal i) = (1, natDecimal i.toNat) := by
      rw [intDecimal, if_neg hi, hcr, splitSign]
      rw [if_neg (by omega), if_neg (by omega), ← hcr]
    rw [parseI64_eval hs (by rw [hcr]; exact List.cons_ne_nil c r) (natDecimal_digits _), hval, htn]
    rw [if_pos (by omega)]
    congr 1
    omega

/-- A byte list whose first byte (if any) ends the preceding token in every
tokenizer: a separator that is not also an operator character.  The
apostrophe, both separator and operator, is deliberately excluded: it ends
a numeric literal but continues a symbol (claim C9). -/
def stopBytes : List Nat → Bool
  | [] => true
  | c :: _ => isSeparator c && !isOp c

/-- A byte list whose first byte (if any) breaks `parseNumber`'s loop. -/
def sepStop : List Nat → Bool
  | [] => true
  | c :: _ => isSeparator c

/-- A byte list whose first byte (if any) breaks `parseSymbol`'s loop. -/
def symStop : List Nat → Bool
  | [] => true
  | c :: _ => !(isAlpha c || isOp c || isDigit c)

/-- A byte list whose first byte (if any) stops `skipWS`. -/
def wsStop : List Nat → Bool
  | [] => true
  | c :: _ => !isWS c

theorem stopBytes_sepStop {r : List Nat} (h : stopBytes r = true) : sepStop r = true := by
  cases r with
  | nil => rfl
  | cons c t =>
    rw [stopBytes, Bool.and_eq_true] at h
    rw [sepStop]
    exact h.1

theorem stopBytes_symStop {r : List Nat} (h : stopBytes r = true) : symStop r = true := by
  cases r with
  | nil => rfl
  | cons c t =>
    rw [stopBytes, Bool.and_eq_true, Bool.not_eq_true'] at h
    rw [symStop, sep_not_symChar h.1 h.2]
    rfl

/-- The greedy scan of `parseNumber` over a run of numeric characters ends
exactly at the first separator (or at end of input), having accumulated the
run. -/
theorem numScan_ok : ∀ (body : List Nat) (offset : Nat) (s rest : List Nat),
    body.all numChar = true → sepStop rest = true →
    parseNumberLoop (body ++ rest) offset s = .ok (s ++ body, offset + body.length) := by
  intro body
  induction body with
  | nil =>
    intro offset s rest _ hrest
    cases rest with
    | nil => simp [parseNumberLoop]
    | cons c r =>
      rw [sepStop] at hrest
      simp only [List.nil_append, parseNumberLoop, sep_not_numChar hrest, Bool.false_eq_true,
        if_false, hrest, if_true]
      simp
  | cons b body ih =>
    intro offset s rest hall hrest
    simp only [List.all_cons, Bool.and_eq_true] at hall
    simp only [List.cons_append, List.append_eq, parseNumberLoop, hall.1, if_true]
    rw [ih (offset + 1) (s ++ [b]) rest hall.2 hrest]
    rw [List.append_assoc, List.singleton_append, List.length_cons]
    congr 2
    omega

/-- The greedy scan of `parseNumber` errors at the first byte that is
neither numeric nor a separator, reporting that byte's offset. -/
theorem numScan_err : ∀ (body : List Nat) (offset : Nat) (s : List Nat) (c : Nat) (rest : List Nat),
    body.all numChar = true → numChar c = false → isSeparator c = false →
    parseNumberLoop (body ++ c :: rest) offset s = .error (offset + body.length) := by
  intro body
  induction body with
  | nil =>
    intro offset s c rest _ hc hsep
    simp [parseNumberLoop, hc, hsep]
  | cons b body ih =>
    intro offset s c rest hall hc hsep
    simp only [List.all_cons, Bool.and_eq_true] at hall
    simp only [List.cons_append, List.append_eq, parseNumberLoop, hall.1, if_true]
    rw [ih (offset + 1) (s ++ [b]) c rest hall.2 hc hsep, List.length_cons]
    congr 1
    omega

/-- `parseString`'s loop consumes up to and including the first quote byte,
returning the bytes strictly before it, verbatim. -/
theorem stringLoop_ok : ∀ (mid : List Nat) (offset : Nat) (s rest : List Nat),
    mid.all (fun c => c ≠ 34) = true →
    parseStringLoop (mid ++ 34 :: rest) offset s = (PROk (s ++ mid), offset + mid.length + 1) := by
  intro mid
  induction mid with
  | nil =>
    intro offset s rest _
    simp [parseStringLoop]
  | cons b mid ih =>
    intro offset s rest hall
    simp only [List.all_cons, Bool.and_eq_true, decide_eq_true_eq] at hall
    simp only [List.cons_append, List.append_eq, parseStringLoop, if_neg hall.1]
    rw [ih (offset + 1) (s ++ [b]) rest hall.2]
    rw [List.append_assoc, List.singleton_append, List.length_cons]
    congr 2
    omega

/-- `parseString`'s loop hits end of input when no quote byte remains,
reporting the end-of-buffer offset. -/
theorem stringLoop_eoi : ∀ (mid : List Nat) (offset : Nat) (s : List Nat),
    mid.all (fun c => c ≠ 34) = true →
    parseStringLoop mid offset s =
      (PRErr ⟨"Unexpected end of stream (string)", offset + mid.length⟩, offset + mid.length) := by
  intro mid
  induction mid with
  | nil =>
    intro offset s _
    simp [parseStringLoop]
  | cons b mid ih =>
    intro offset s hall
    simp only [List.all_cons, Bool.and_eq_true, decide_eq_true_eq] at hall
    simp only [parseStringLoop, if_neg hall.1]
    rw [ih (offset + 1) (s ++ [b]) hall.2, List.length_cons]
    have : offset + 1 + mid.length = offset + (mid.length + 1) := by omega
    rw [this]

/-- `parseSymbol`'s loop consumes a maximal alpha/operator/digit run,
leaving the stopping byte unconsumed. -/
theorem symLoop_ok : ∀ (body : List Nat) (offset : Nat) (s rest : List Nat),
    body.all (fun c => isAlpha c || isOp c || isDigit c) = true →
    symStop rest = true →
    parseSymbolLoop (body ++ rest) offset s = (s ++ body, offset + body.length) := by
  intro body
  induction body with
  | nil =>
    intro offset s rest _ hrest
    cases rest with
    | nil => simp [parseSymbolLoop]
    | cons c r =>
      rw [symStop, Bool.not_eq_true'] at hrest
      simp [parseSymbolLoop, hrest]
  | cons b body ih =>
    intro offset s rest hall hrest
    simp only [List.all_cons, Bool.and_eq_true] at hall
    simp only [List.cons_append, List.append_eq, parseSymbolLoop, hall.1, if_true]
    rw [ih (offset + 1) (s ++ [b]) rest hall.2 hrest]
    rw [List.append_assoc, List.singleton_append, List.length_cons]
    have harith : offset + 1 + body.length = offset + (body.length + 1) := by omega
    rw [harith]

/-- `skipWS` consumes exactly a maximal whitespace run. -/
theorem skipWSAux_ok : ∀ (ws : List Nat) (offset : Nat) (rest : List Nat),
    ws.all isWS = true → wsStop rest = true →
    skipWSAux (ws ++ rest) offset = offset + ws.length := by
  intro ws
  induction ws with
  | nil =>
    intro offset rest _ hrest
    cases rest with
    | nil => simp [skipWSAux]
    | cons c r =>
      rw [wsStop, Bool.not_eq_true'] at hrest
      simp [skipWSAux, hrest]
  | cons b ws ih =>
    intro offset rest hall hrest
    simp only [List.all_cons, Bool.and_eq_true] at hall
    simp only [List.cons_append, List.append_eq, skipWSAux, hall.1, if_true]
    rw [ih (offset + 1) rest hall.2 hrest, List.length_cons]
    omega

theorem digit_numChar {c : Nat} (h : isDigit c = true) : numChar c = true := by
  rw [isDigit_eq] at h
  rw [numChar_eq]
  omega

theorem natDecimal_numChar (n : Nat) : (natDecimal n).all numChar = true := by
  have h := natDecimal_digits n
  rw [List.all_eq_true] at h ⊢
  intro c hc
  exact digit_numChar (h c hc)

theorem intDecimal_numChar (i : Int) : (intDecimal i).all numChar = true := by
  rw [intDecimal]
  split
  · rw [List.all_cons, natDecimal_numChar]
    rfl
  · exact natDecimal_numChar _

theorem intDecimal_ne_nil (i : Int) : intDecimal i ≠ [] := by
  rw [intDecimal]
  split
  · simp
  · exact natDecimal_ne_nil _

/-- Evaluation of `parseString` once the peeked byte is known. -/
theorem parseString_some {src : List Nat} {o c : Nat} (h : peek src o = some c) :
    parseString src o =
      if c = 34 then parseStringLoop (src.drop (o + 1)) (o + 1) []
      else (PRErr ⟨"Expected \"", o⟩, o) := by
  rw [parseString, h]

/-- Evaluation of `parseSymbol` once the peeked byte is known. -/
theorem parseSymbol_some {src : List Nat} {o c : Nat} (h : peek src o = some c) :
    parseSymbol src o =
      if isAlpha c || isOp c then
        (PROk (parseSymbolLoop (src.drop o) o []).1, (parseSymbolLoop (src.drop o) o []).2)
      else (PRErr ⟨"Expected alpha/operator", o⟩, o) := by
  rw [parseSymbol, h]

/-- Evaluation of `parseTokenF` once the peeked byte is known. -/
theorem parseTokenF_some {f : Nat} {src : List Nat} {o c : Nat} (h : peek src o = some c) :
    parseTokenF (f + 1) src o =
      if c = 34 then some (stringResult src o)
      else if numDispatch src o c then some (parseNumber src o)
      else if isAlpha c || isOp c then some (symbolResult src o)
      else if c = 40 then parseListF f src o
      else some (PRErr ⟨"unexpected char (token)", o⟩, o) := by
  rw [parseTokenF, h]

/-- Evaluation of `parseListF` once the peeked byte is known. -/
theorem parseListF_some {f : Nat} {src : List Nat} {o c : Nat} (h : peek src o = some c) :
    parseListF (f + 1) src o =
      if c = 40 then parseListGoF f src (o + 1) []
      else some (PRErr ⟨"unexpected character (list)", o + 1⟩, o + 1) := by
  rw [parseListF, h]

/-- Evaluation of one iteration of the list-element loop. -/
theorem parseListGoF_succ (f : Nat) (src : List Nat) (o : Nat) (cells : List Exp) :
    parseListGoF (f + 1) src o cells =
      match peek src (skipWS src o) with
      | some c =>
        if c = 41 then some (PROk (Exp.List cells), skipWS src o + 1)
        else
          match parseTokenF f src (skipWS src o) with
          | some (PROk e, o2) => parseListGoF f src o2 (cells ++ [e])
          | some (PRErr err, o2) => some (PRErr err, o2)
          | none => none
      | none => some (PRErr ⟨"unexpected end of stream (list)", skipWS src o⟩, skipWS src o) := by
  rw [parseListGoF]

/-- `parseNumber` on the printed form of an in-range `i64`, followed by a
separator or end of input: exact round-trip to `Int`. -/
theorem parseNumber_intDecimal {src : List Nat} {o : Nat} {i : Int} {rest : List Nat}
    (hd : src.drop o = intDecimal i ++ rest) (h1 : -(2 ^ 63) ≤ i) (h2 : i < 2 ^ 63)
    (hrest : sepStop rest = true) :
    parseNumber src o = (PROk (Exp.Int i), o + (intDecimal i).length) := by
  rw [parseNumber, hd, numScan_ok _ _ _ _ (intDecimal_numChar i) hrest]
  simp only [List.nil_append]
  rw [parseI64_intDecimal h1 h2]

/-- `parseString` on a quoted, quote-free byte run: returns exactly the
text strictly between the quotes, cursor past the closing quote. -/
theorem parseString_print {src : List Nat} {o : Nat} {s rest : List Nat}
    (hd : src.drop o = 34 :: (s ++ 34 :: rest)) (hs : s.all (fun c => c ≠ 34) = true) :
    parseString src o = (PROk s, o + s.length + 2) := by
  have hpeek : peek src o = some 34 := by
    rw [peek_eq_head_drop, hd]
    rfl
  have hd2 : src.drop (o + 1) = s ++ 34 :: rest := drop_succ_of_drop_cons hd
  rw [parseString_some hpeek, if_pos rfl]
  rw [hd2, stringLoop_ok _ _ _ _ hs]
  rw [List.nil_append]
  have : o + 1 + s.length + 1 = o + s.length + 2 := by omega
  rw [this]

theorem goodSymbol_parts {s : List Nat} (h : goodSymbol s = true) :
    ∃ c r, s = c :: r ∧ (isAlpha c || isOp c) = true ∧
      s.all (fun d => isAlpha d || isOp d || isDigit d) = true := by
  cases s with
  | nil => simp [goodSymbol] at h
  | cons c r =>
    simp only [goodSymbol] at h
    rw [Bool.and_eq_true, Bool.and_eq_true] at h
    refine ⟨c, r, rfl, h.1.1, ?_⟩
    rw [List.all_cons, h.1.2, Bool.and_true]
    rw [Bool.or_eq_true]
    left
    exact h.1.1

/-- `parseSymbol` on a well-formed symbol token followed by a stopping
byte: returns the token verbatim, stopping byte unconsumed. -/
theorem parseSymbol_print {src : List Nat} {o : Nat} {s rest : List Nat}
    (hd : src.drop o = s ++ rest) (hgood : goodSymbol s = true)
    (hrest : stopBytes rest = true) :
    parseSymbol src o = (PROk s, o + s.length) := by
  obtain ⟨c, r, rfl, hco, hall⟩ := goodSymbol_parts hgood
  have hpeek : peek src o = some c := by
    rw [peek_eq_head_drop, hd]
    rfl
  rw [parseSymbol_some hpeek, if_pos hco]
  rw [hd, symLoop_ok _ _ _ _ hall (stopBytes_symStop hrest), List.nil_append]

theorem goodTreeL_mem : ∀ {l : List Exp}, goodTreeL l = true → ∀ e ∈ l, goodTree e = true := by
  intro l
  induction l with
  | nil => intro _ e he; cases he
  | cons a l ih =>
    intro h e he
    rw [goodTreeL, Bool.and_eq_true] at h
    cases he with
    | head => exact h.1
    | tail _ ht => exact ih h.2 e ht

/-- The first byte of the printed form of a good tree: it exists, is not
whitespace, and is not a closing parenthesis. -/
theorem printed_head (t : Exp) (hg : goodTree t = true) :
    ∃ c r, expToString t = c :: r ∧ isWS c = false ∧ c ≠ 41 := by
  cases t with
  | Bool b => simp [goodTree] at hg
  | Char c => simp [goodTree] at hg
  | Float f => simp [goodTree] at hg
  | Int i =>
    rw [expToString, intDecimal]
    by_cases hi : i < 0
    · exact ⟨45, _, by rw [if_pos hi], by decide, by decide⟩
    · rw [if_neg hi]
      obtain ⟨c, r, hcr, hc⟩ := natDecimal_head i.toNat
      rw [isDigit_eq] at hc
      refine ⟨c, r, hcr, ?_, by omega⟩
      rw [Bool.eq_false_iff, Ne, isWS_eq]
      omega
  | String s => exact ⟨34, _, rfl, by decide, by decide⟩
  | Symbol s =>
    rw [goodTree] at hg
    obtain ⟨c, r, hcr, hco, _⟩ := goodSymbol_parts hg
    rw [Bool.or_eq_true, isAlpha_eq, isOp_eq] at hco
    refine ⟨c, r, hcr, ?_, by omega⟩
    rw [Bool.eq_false_iff, Ne, isWS_eq]
    omega
  | List l => exact ⟨40, _, rfl, by decide, by decide⟩

theorem expToString_ne_nil (t : Exp) (hg : goodTree t = true) : expToString t ≠ [] := by
  obtain ⟨c, r, hcr, _, _⟩ := printed_head t hg
  rw [hcr]
  exact List.cons_ne_nil c r

/-- Bound on the fuel needed to parse the space-separated printed elements
of a list, given bounds for the elements. -/
theorem needL_le (l : List Exp)
    (H : ∀ e ∈ l, needE e ≤ 4 * (expToString e).length) :
    needL l ≤ 4 * (printInner l).length + 2 := by
  induction l with
  | nil => simp [needL, printInner]
  | cons e l ih =>
    cases l with
    | nil =>
      have he := H e (by simp)
      rw [needL, needL, printInner]
      omega
    | cons e2 l2 =>
      have he := H e (by simp)
      have hrec := ih (fun x hx => H x (by simp [hx]))
      rw [needL, printInner]
      · simp only [List.length_append, List.length_cons]
        omega
      · simp

/-- The fuel `4 * (printed length)` always suffices for a good tree. -/
theorem needE_le : ∀ (n : Nat) (t : Exp), sizeOf t ≤ n → goodTree t = true →
    needE t ≤ 4 * (expToString t).length := by
  intro n
  induction n with
  | zero =>
    intro t hs
    cases t <;> simp_all
  | succ n ih =>
    intro t hs hg
    cases t with
    | Bool b => simp [goodTree] at hg
    | Char c => simp [goodTree] at hg
    | Float f => simp [goodTree] at hg
    | Int i =>
      show 1 ≤ 4 * (expToString (Exp.Int i)).length
      have := expToString_ne_nil (Exp.Int i) hg
      have : (expToString (Exp.Int i)).length ≥ 1 := by
        cases hx : expToString (Exp.Int i) with
        | nil => exact absurd hx this
        | cons a b => simp [hx]
      omega
    | String s =>
      show 1 ≤ 4 * (expToString (Exp.String s)).length
      rw [expToString]
      simp only [List.length_cons, List.length_append]
      omega
    | Symbol s =>
      show 1 ≤ 4 * (expToString (Exp.Symbol s)).length
      have := expToString_ne_nil (Exp.Symbol s) hg
      have : (expToString (Exp.Symbol s)).length ≥ 1 := by
        cases hx : expToString (Exp.Symbol s) with
        | nil => exact absurd hx this
        | cons a b => simp [hx]
      omega
    | List l =>
      rw [goodTree] at hg
      have hmem : ∀ e ∈ l, needE e ≤ 4 * (expToString e).length := by
        intro e he
        have hse : sizeOf e < sizeOf (Exp.List l) := by
          have h1 : sizeOf e < sizeOf l := List.sizeOf_lt_of_mem he
          simp only [Exp.List.sizeOf_spec]
          omega
        exact ih e (by omega) (goodTreeL_mem hg e he)
      have := needL_le l hmem
      rw [needE, expToString]
      simp only [List.length_cons, List.length_append]
      omega

theorem drop_after (src : List Nat) {o : Nat} {pre rest : List Nat}
    (hd : src.drop o = pre ++ rest) : src.drop (o + pre.length) = rest := by
  rw [drop_add, hd, List.drop_left]

/-- Evaluation of the list-element loop once the byte after the skipped
whitespace is known. -/
theorem parseListGoF_some {f : Nat} {src : List Nat} {o : Nat} {cells : List Exp} {c : Nat}
    (h : peek src (skipWS src o) = some c) :
    parseListGoF (f + 1) src o cells =
      if c = 41 then some (PROk (Exp.List cells), skipWS src o + 1)
      else
        match parseTokenF f src (skipWS src o) with
        | some (PROk e, o2) => parseListGoF f src o2 (cells ++ [e])
        | some (PRErr err, o2) => some (PRErr err, o2)
        | none => none := by
  rw [parseListGoF, h]

theorem numDispatch_of_digit {src : List Nat} {o c : Nat} (h : isDigit c = true) :
    numDispatch src o c = true := by
  simp [numDispatch, h]

theorem numDispatch_sign_digit {src : List Nat} {o c c2 : Nat} (hc : c = 43 ∨ c = 45)
    (h2 : peek src (o + 1) = some c2) (hd2 : isDigit c2 = true) :
    numDispatch src o c = true := by
  rcases hc with rfl | rfl <;> simp [numDispatch, h2, hd2]

theorem numDispatch_false {src : List Nat} {o c : Nat} (hdig : isDigit c = false)
    (hnext : (c = 43 ∨ c = 45) →
      (match peek src (o + 1) with | some d => isDigit d = false | none => True)) :
    numDispatch src o c = false := by
  rw [numDispatch, hdig]
  simp only [Bool.false_or]
  by_cases hc : c = 43 ∨ c = 45
  · have hn := hnext hc
    cases hp : peek src (o + 1) with
    | some d =>
      rw [hp] at hn
      simp [hp, hn]
    | none => simp [hp]
  · push_neg at hc
    simp [hc.1, hc.2]

theorem alphaOp_facts {c : Nat} (h : (isAlpha c || isOp c) = true) :
    c ≠ 34 ∧ isDigit c = false ∧ c ≠ 40 ∧ c ≠ 41 := by
  rw [Bool.or_eq_true, isAlpha_eq, isOp_eq] at h
  exact ⟨by omega, by rw [Bool.eq_false_iff, Ne, isDigit_eq]; omega, by omega, by omega⟩

/-- The parsing statement proved for printed good trees: from any position
whose remaining bytes are the tree's printed form followed by stopping
bytes, the dispatcher (given enough fuel) returns exactly the tree and
advances the cursor by the printed length. -/
def ParsesPrinted (t : Exp) : Prop :=
  ∀ (f o : Nat) (src rest : List Nat), needE t ≤ f → stopBytes rest = true →
    src.drop o = expToString t ++ rest →
    parseTokenF f src o = some (PROk t, o + (expToString t).length)

/-- The separator the printer places after a list element: nothing after
the last element, a single space otherwise. -/
def sepOf (l : List Exp) : List Nat :=
  match l with
  | [] => []
  | _ :: _ => [32]

theorem printInner_cons_sep (e : Exp) (l2 : List Exp) (tail : List Nat) :
    printInner (e :: l2) ++ tail = expToString e ++ (sepOf l2 ++ printInner l2 ++ tail) := by
  cases l2 with
  | nil => rw [printInner]; simp [sepOf, printInner]
  | cons e2 l3 =>
    rw [printInner]
    · simp [sepOf]
    · simp

/-- The list-element loop on the printed, space-separated elements of a
list (possibly preceded by whitespace) followed by `)`: collects exactly
those elements, in order, onto the ones already collected. -/
theorem parseListGo_print : ∀ (l : List Exp), (∀ e ∈ l, ParsesPrinted e) →
    goodTreeL l = true →
    ∀ (f o : Nat) (src ws rest : List Nat) (cells : List Exp),
      needL l ≤ f → ws.all isWS = true → stopBytes rest = true →
      src.drop o = ws ++ printInner l ++ 41 :: rest →
      parseListGoF f src o cells =
        some (PROk (Exp.List (cells ++ l)), o + ws.length + (printInner l).length + 1) := by
  intro l
  induction l with
  | nil =>
    intro _ _ f o src ws rest cells hf hws hrest hd
    obtain ⟨f2, rfl⟩ : ∃ f2, f = f2 + 1 := ⟨f - 1, by rw [needL] at hf; omega⟩
    simp only [printInner, List.append_nil] at hd
    have hskip : skipWS src o = o + ws.length := by
      rw [skipWS, hd]
      exact skipWSAux_ok ws o (41 :: rest) hws rfl
    have hdrop2 : src.drop (o + ws.length) = 41 :: rest := by
      rw [drop_add, hd, List.drop_left]
    have hpeek : peek src (skipWS src o) = some 41 := by
      rw [hskip, peek_eq_head_drop, hdrop2]
      rfl
    rw [parseListGoF_some hpeek, if_pos rfl, hskip]
    simp [printInner]
  | cons e l2 ih =>
    intro HL hg f o src ws rest cells hf hws hrest hd
    rw [goodTreeL, Bool.and_eq_true] at hg
    obtain ⟨f2, rfl⟩ : ∃ f2, f = f2 + 1 := ⟨f - 1, by rw [needL] at hf; omega⟩
    have hf2 : needE e + needL l2 ≤ f2 := by rw [needL] at hf; omega
    obtain ⟨c, r, hcr, hcws, hc41⟩ := printed_head e hg.1
    have hd' : src.drop o = ws ++ (expToString e ++ (sepOf l2 ++ printInner l2 ++ 41 :: rest)) := by
      rw [hd, List.append_assoc, printInner_cons_sep]
    have hskip : skipWS src o = o + ws.length := by
      rw [skipWS, hd']
      refine skipWSAux_ok ws o _ hws ?_
      rw [hcr, List.cons_append, wsStop, hcws]
      rfl
    have hdrop2 : src.drop (o + ws.length) =
        expToString e ++ (sepOf l2 ++ printInner l2 ++ 41 :: rest) := by
      rw [drop_add, hd', List.drop_left]
    have hpeek : peek src (skipWS src o) = some c := by
      rw [hskip, peek_eq_head_drop, hdrop2, hcr]
      rfl
    have hstop1 : stopBytes (sepOf l2 ++ printInner l2 ++ 41 :: rest) = true := by
      cases l2 with
      | nil => rfl
      | cons e2 l3 => rfl
    have htok := HL e (by simp) f2 (o + ws.length) src _ (by omega) hstop1 hdrop2
    rw [parseListGoF_some hpeek, if_neg hc41, hskip, htok]
    show parseListGoF f2 src (o + ws.length + (expToString e).length) (cells ++ [e]) = _
    have hd3 : src.drop (o + ws.length + (expToString e).length) =
        sepOf l2 ++ printInner l2 ++ 41 :: rest := drop_after src hdrop2
    have hrec := ih (fun x hx => HL x (by simp [hx])) hg.2 f2
      (o + ws.length + (expToString e).length) src (sepOf l2) rest (cells ++ [e])
      (by omega) (by cases l2 <;> rfl) hrest hd3
    rw [hrec, ← List.append_cons]
    have hlen : (printInner (e :: l2)).length =
        (expToString e).length + (sepOf l2).length + (printInner l2).length := by
      have hc := congrArg List.length (printInner_cons_sep e l2 [])
      simp only [List.length_append] at hc
      omega
    have harith : o + ws.length + (expToString e).length + (sepOf l2).length +
        (printInner l2).length + 1 = o + ws.length + (printInner (e :: l2)).length + 1 := by
      omega
    rw [harith]

theorem goodSymbol_no_sign_digit {c : Nat} {r : List Nat} (h : goodSymbol (c :: r) = true) :
    (c = 43 ∨ c = 45) → (match r with | d :: _ => isDigit d = false | [] => True) := by
  intro hc
  simp only [goodSymbol, Bool.and_eq_true, Bool.not_eq_true'] at h
  have h2 := h.2
  cases r with
  | nil => trivial
  | cons d rd =>
    rw [Bool.and_eq_false_iff] at h2
    cases h2 with
    | inl hfalse =>
      exfalso
      rcases hc with rfl | rfl <;> simp at hfalse
    | inr hdig => exact hdig

theorem bool_ne_true {b : Bool} (h : b = false) : ¬(b = true) := by
  rw [h]
  exact Bool.false_ne_true

/-- The dispatcher on the printed form of any good tree followed by stop
bytes: returns the tree, cursor advanced past the printed text. -/
theorem parsePrintAux : ∀ (n : Nat) (t : Exp), sizeOf t ≤ n → goodTree t = true →
    ParsesPrinted t := by
  intro n
  induction n with
  | zero =>
    intro t hs
    cases t <;> simp_all
  | succ n ih =>
    intro t hs hg
    cases t with
    | Bool b => simp [goodTree] at hg
    | Char c => simp [goodTree] at hg
    | Float f => simp [goodTree] at hg
    | Int i =>
      rw [goodTree, Bool.and_eq_true, decide_eq_true_eq, decide_eq_true_eq] at hg
      intro f o src rest hf hstop hd
      obtain ⟨f2, rfl⟩ : ∃ f2, f = f2 + 1 := ⟨f - 1, by
        have : needE (Exp.Int i) = 1 := rfl
        omega⟩
      rw [show expToString (Exp.Int i) = intDecimal i from rfl] at hd ⊢
      by_cases hi : i < 0
      · have hint : intDecimal i = 45 :: natDecimal (-i).toNat := by
          rw [intDecimal, if_pos hi]
        have hd2 : src.drop o = 45 :: (natDecimal (-i).toNat ++ rest) := by
          rw [hd, hint, List.cons_append]
        have hpeek : peek src o = some 45 := by
          rw [peek_eq_head_drop, hd2]
          rfl
        obtain ⟨d, rd, hdr, hdig⟩ := natDecimal_head (-i).toNat
        have hpeek2 : peek src (o + 1) = some d := by
          rw [peek_eq_head_drop, drop_succ_of_drop_cons hd2, hdr, List.cons_append]
          rfl
        have hnum : numDispatch src o 45 = true :=
          numDispatch_sign_digit (Or.inr rfl) hpeek2 hdig
        rw [parseTokenF_some hpeek, if_neg (by decide), if_pos hnum]
        rw [parseNumber_intDecimal hd hg.1 hg.2 (stopBytes_sepStop hstop)]
      · have hint : intDecimal i = natDecimal i.toNat := by
          rw [intDecimal, if_neg hi]
        obtain ⟨d, rd, hdr, hdig⟩ := natDecimal_head i.toNat
        have hd2 : src.drop o = d :: (rd ++ rest) := by
          rw [hd, hint, hdr, List.cons_append]
        have hpeek : peek src o = some d := by
          rw [peek_eq_head_drop, hd2]
          rfl
        have hd34 : ¬(d = 34) := by
          rw [isDigit_eq] at hdig
          omega
        have hnum : numDispatch src o d = true := numDispatch_of_digit hdig
        rw [parseTokenF_some hpeek, if_neg hd34, if_pos hnum]
        rw [parseNumber_intDecimal hd hg.1 hg.2 (stopBytes_sepStop hstop)]
    | String s =>
      rw [goodTree] at hg
      intro f o src rest hf hstop hd
      obtain ⟨f2, rfl⟩ : ∃ f2, f = f2 + 1 := ⟨f - 1, by
        have : needE (Exp.String s) = 1 := rfl
        omega⟩
      rw [show expToString (Exp.String s) = (34 :: s) ++ [34] from rfl] at hd ⊢
      have hd2 : src.drop o = 34 :: (s ++ 34 :: rest) := by
        rw [hd]
        simp [List.cons_append, List.append_assoc]
      have hpeek : peek src o = some 34 := by
        rw [peek_eq_head_drop, hd2]
        rfl
      rw [parseTokenF_some hpeek, if_pos rfl, stringResult, parseString_print hd2 hg]
      have hlen : ((34 :: s) ++ [34]).length = s.length + 2 := by simp
      rw [hlen]
      have harith : o + s.length + 2 = o + (s.length + 2) := by omega
      rw [harith]
    | Symbol s =>
      rw [goodTree] at hg
      intro f o src rest hf hstop hd
      obtain ⟨f2, rfl⟩ : ∃ f2, f = f2 + 1 := ⟨f - 1, by
        have : needE (Exp.Symbol s) = 1 := rfl
        omega⟩
      rw [show expToString (Exp.Symbol s) = s from rfl] at hd ⊢
      obtain ⟨c, r, hcr, hco, hall⟩ := goodSymbol_parts hg
      have hd2 : src.drop o = c :: (r ++ rest) := by
        rw [hd, hcr, List.cons_append]
      have hpeek : peek src o = some c := by
        rw [peek_eq_head_drop, hd2]
        rfl
      obtain ⟨h34, hdigf, h40, h41⟩ := alphaOp_facts hco
      have hnumd : numDispatch src o c = false := by
        refine numDispatch_false hdigf ?_
        intro hc45
        have hnsd := goodSymbol_no_sign_digit (hcr ▸ hg) hc45
        have hdrop1 : src.drop (o + 1) = r ++ rest := drop_succ_of_drop_cons hd2
        cases r with
        | nil =>
          rw [List.nil_append] at hdrop1
          cases hrest : rest with
          | nil =>
            have : peek src (o + 1) = none := by
              rw [peek_eq_head_drop, hdrop1, hrest]
              rfl
            rw [this]
            trivial
          | cons c2 r2 =>
            have : peek src (o + 1) = some c2 := by
              rw [peek_eq_head_drop, hdrop1, hrest]
              rfl
            rw [this]
            rw [hrest, stopBytes, Bool.and_eq_true] at hstop
            exact sep_not_digit hstop.1
        | cons d rd =>
          have : peek src (o + 1) = some d := by
            rw [peek_eq_head_drop, hdrop1, List.cons_append]
            rfl
          rw [this]
          exact hnsd
      rw [parseTokenF_some hpeek, if_neg h34, if_neg (bool_ne_true hnumd), if_pos hco]
      rw [symbolResult, parseSymbol_print hd hg hstop]
    | List l =>
      rw [goodTree] at hg
      intro f o src rest hf hstop hd
      obtain ⟨f2, rfl⟩ : ∃ f2, f = f2 + 1 := ⟨f - 1, by
        have : needE (Exp.List l) = needL l + 2 := rfl
        omega⟩
      have hneed : needL l + 2 ≤ f2 + 1 := by
        have : needE (Exp.List l) = needL l + 2 := rfl
        omega
      obtain ⟨f3, rfl⟩ : ∃ f3, f2 = f3 + 1 := ⟨f2 - 1, by omega⟩
      rw [show expToString (Exp.List l) = (40 :: printInner l) ++ [41] from rfl] at hd ⊢
      have hd2 : src.drop o = 40 :: (printInner l ++ 41 :: rest) := by
        rw [hd]
        simp [List.cons_append, List.append_assoc]
      have hpeek : peek src o = some 40 := by
        rw [peek_eq_head_drop, hd2]
        rfl
      have hnumd : numDispatch src o 40 = false := by
        refine numDispatch_false (by decide) ?_
        intro hc45
        omega
      rw [parseTokenF_some hpeek, if_neg (by decide), if_neg (bool_ne_true hnumd),
        if_neg (by decide), if_pos rfl]
      rw [parseListF_some hpeek, if_pos rfl]
      have HL : ∀ e ∈ l, ParsesPrinted e := by
        intro e he
        have hse : sizeOf e < sizeOf (Exp.List l) := by
          have h1 : sizeOf e < sizeOf l := List.sizeOf_lt_of_mem he
          simp only [Exp.List.sizeOf_spec]
          omega
        exact ih e (by omega) (goodTreeL_mem hg e he)
      have hd3 : src.drop (o + 1) = ([] : List Nat) ++ printInner l ++ 41 :: rest := by
        rw [drop_succ_of_drop_cons hd2, List.nil_append]
      have hgo := parseListGo_print l HL hg f3 (o + 1) src [] rest []
        (by omega) rfl hstop hd3
      rw [hgo]
      have hlen : ((40 :: printInner l) ++ [41]).length = (printInner l).length + 2 := by
        simp
      rw [hlen]
      simp only [List.nil_append, List.length_nil, Nat.add_zero]
      have harith : o + 1 + (printInner l).length + 1 = o + ((printInner l).length + 2) := by
        omega
      rw [harith]

/-- Top-level round-trip, with optional leading whitespace and optional
trailing bytes starting with a non-operator separator: `fromSExp` returns
exactly the printed tree. -/
theorem fromSExp_print (ws : List Nat) (t : Exp) (rest : List Nat)
    (hws : ws.all isWS = true) (hg : goodTree t = true) (hstop : stopBytes rest = true) :
    fromSExp (ws ++ expToString t ++ rest) = PROk t := by
  obtain ⟨c, r, hcr, hcws, _⟩ := printed_head t hg
  have hassoc : ws ++ expToString t ++ rest = ws ++ (expToString t ++ rest) :=
    List.append_assoc ws (expToString t) rest
  have hskip : skipWS (ws ++ expToString t ++ rest) 0 = ws.length := by
    rw [skipWS, List.drop_zero, hassoc]
    have hws2 := skipWSAux_ok ws 0 (expToString t ++ rest) hws
      (by rw [hcr, List.cons_append, wsStop, hcws]; rfl)
    rw [hws2]
    omega
  have hd : (ws ++ expToString t ++ rest).drop ws.length = expToString t ++ rest := by
    rw [hassoc]
    exact List.drop_left ws _
  have hlen : (expToString t).length ≤ (ws ++ expToString t ++ rest).length := by
    simp only [List.length_append]
    omega
  have hneed : needE t ≤ 4 * (ws ++ expToString t ++ rest).length + 4 := by
    have h1 := needE_le (sizeOf t) t (Nat.le_refl _) hg
    omega
  have htok := parsePrintAux (sizeOf t) t (Nat.le_refl _) hg
    (4 * (ws ++ expToString t ++ rest).length + 4) ws.length
    (ws ++ expToString t ++ rest) rest hneed hstop hd
  simp only [fromSExp]
  rw [hskip, parseToken, htok]
  rfl

theorem noBoolCharL_append {a : List Exp} {e : Exp} (ha : noBoolCharL a = true)
    (he : noBoolChar e = true) : noBoolCharL (a ++ [e]) = true := by
  induction a with
  | nil => simpa [noBoolCharL] using he
  | cons x a ih =>
    rw [noBoolCharL, Bool.and_eq_true] at ha
    rw [List.cons_append, noBoolCharL, Bool.and_eq_true]
    exact ⟨ha.1, ih ha.2⟩

/-- `parseNumber` can only succeed with an `Int` or a `Float`. -/
theorem parseNumber_shape (src : List Nat) (o : Nat) {r : Exp} {o2 : Nat}
    (h : parseNumber src o = (PROk r, o2)) :
    (∃ i, r = Exp.Int i) ∨ (∃ v, r = Exp.Float v) := by
  rw [parseNumber] at h
  rcases hl : parseNumberLoop (src.drop o) o [] with p | ⟨s, p⟩ <;> simp only [hl] at h
  · injection h with h1 _
    injection h1
  · rcases hi : parseI64 s with _ | i <;> simp only [hi] at h
    · rcases hf : parseF64 s with _ | v <;> simp only [hf] at h
      · injection h with h1 _
        injection h1
      · injection h with h1 _
        injection h1 with h2
        exact Or.inr ⟨v, h2.symm⟩
    · injection h with h1 _
      injection h1 with h2
      exact Or.inl ⟨i, h2.symm⟩

theorem stringResult_shape (src : List Nat) (o : Nat) {r : Exp} {o2 : Nat}
    (h : stringResult src o = (PROk r, o2)) : ∃ s, r = Exp.String s := by
  rw [stringResult] at h
  rcases hps : parseString src o with ⟨pr, p⟩
  rw [hps] at h
  cases pr with
  | PROk s =>
    injection h with h1 _
    injection h1 with h2
    exact ⟨s, h2.symm⟩
  | PRErr e =>
    injection h with h1 _
    injection h1

theorem symbolResult_shape (src : List Nat) (o : Nat) {r : Exp} {o2 : Nat}
    (h : symbolResult src o = (PROk r, o2)) : ∃ s, r = Exp.Symbol s := by
  rw [symbolResult] at h
  rcases hps : parseSymbol src o with ⟨pr, p⟩
  rw [hps] at h
  cases pr with
  | PROk s =>
    injection h with h1 _
    injection h1 with h2
    exact ⟨s, h2.symm⟩
  | PRErr e =>
    injection h with h1 _
    injection h1

/-- Joint invariant, by induction on fuel: every expression the dispatcher,
the list parser or the element loop successfully produces is free of `Bool`
and `Char` (for the loop, provided the already-collected elements are). -/
theorem noBC_aux : ∀ f : Nat,
    (∀ (src : List Nat) (o : Nat) (r : Exp) (o2 : Nat),
      parseTokenF f src o = some (PROk r, o2) → noBoolChar r = true) ∧
    (∀ (src : List Nat) (o : Nat) (r : Exp) (o2 : Nat),
      parseListF f src o = some (PROk r, o2) → noBoolChar r = true) ∧
    (∀ (src : List Nat) (o : Nat) (cells : List Exp) (r : Exp) (o2 : Nat),
      noBoolCharL cells = true →
      parseListGoF f src o cells = some (PROk r, o2) → noBoolChar r = true) := by
  intro f
  induction f with
  | zero =>
    refine ⟨?_, ?_, ?_⟩
    · intro src o r o2 h
      simp [parseTokenF] at h
    · intro src o r o2 h
      simp [parseListF] at h
    · intro src o cells r o2 _ h
      simp [parseListGoF] at h
  | succ f ih =>
    refine ⟨?_, ?_, ?_⟩
    · intro src o r o2 h
      cases hp : peek src o with
      | none =>
        rw [parseTokenF, hp] at h
        injection h with h1
        injection h1 with h2 _
        injection h2
      | some c =>
        rw [parseTokenF_some hp] at h
        by_cases h34 : c = 34
        · rw [if_pos h34] at h
          injection h with h1
          obtain ⟨s, rfl⟩ := stringResult_shape src o h1
          rfl
        · rw [if_neg h34] at h
          by_cases hnum : numDispatch src o c = true
          · rw [if_pos hnum] at h
            injection h with h1
            rcases parseNumber_shape src o h1 with ⟨i, rfl⟩ | ⟨v, rfl⟩ <;> rfl
          · rw [if_neg hnum] at h
            by_cases hsym : (isAlpha c || isOp c) = true
            · rw [if_pos hsym] at h
              injection h with h1
              obtain ⟨s, rfl⟩ := symbolResult_shape src o h1
              rfl
            · rw [if_neg hsym] at h
              by_cases h40 : c = 40
              · rw [if_pos h40] at h
                exact ih.2.1 src o r o2 h
              · rw [if_neg h40] at h
                injection h with h1
                injection h1 with h2 _
                injection h2
    · intro src o r o2 h
      cases hp : peek src o with
      | none =>
        rw [parseListF, hp] at h
        injection h with h1
        injection h1 with h2 _
        injection h2
      | some c =>
        rw [parseListF_some hp] at h
        by_cases h40 : c = 40
        · rw [if_pos h40] at h
          exact ih.2.2 src (o + 1) [] r o2 rfl h
        · rw [if_neg h40] at h
          injection h with h1
          injection h1 with h2 _
          injection h2
    · intro src o cells r o2 hcells h
      cases hp : peek src (skipWS src o) with
      | none =>
        rw [parseListGoF, hp] at h
        injection h with h1
        injection h1 with h2 _
        injection h2
      | some c =>
        rw [parseListGoF_some hp] at h
        by_cases h41 : c = 41
        · rw [if_pos h41] at h
          injection h with h1
          injection h1 with h2 _
          injection h2 with h3
          rw [← h3, noBoolChar]
          exact hcells
        · rw [if_neg h41] at h
          rcases ht : parseTokenF f src (skipWS src o) with _ | ⟨pr, p⟩
          · rw [ht] at h
            injection h
          · rw [ht] at h
            cases pr with
            | PROk e =>
              have he := ih.1 src (skipWS src o) e p ht
              exact ih.2.2 src p (cells ++ [e]) r o2 (noBoolCharL_append hcells he) h
            | PRErr err =>
              injection h with h1
              injection h1 with h2 _
              injection h2

theorem noNaNL_mem : ∀ {l : List Exp}, noNaNL l = true → ∀ e ∈ l, noNaN e = true := by
  intro l
  induction l with
  | nil => intro _ e he; cases he
  | cons a l ih =>
    intro h e he
    rw [noNaNL, Bool.and_eq_true] at h
    cases he with
    | head => exact h.1
    | tail _ ht => exact ih h.2 e ht

theorem expEqList_refl (l : List Exp) (H : ∀ e ∈ l, expEq e e = true) :
    expEqList l l = true := by
  induction l with
  | nil => rfl
  | cons e l ih =>
    rw [expEqList, Bool.and_eq_true]
    exact ⟨H e (by simp), ih fun x hx => H x (by simp [hx])⟩

/-- The source's structural equality is reflexive on every tree that holds
no NaN `Float` anywhere. -/
theorem expEq_refl_aux : ∀ (n : Nat) (e : Exp), sizeOf e ≤ n → noNaN e = true →
    expEq e e = true := by
  intro n
  induction n with
  | zero =>
    intro e hs
    cases e <;> simp_all
  | succ n ih =>
    intro e hs hn
    cases e with
    | Bool b => simp [expEq]
    | Char c => simp [expEq]
    | Int i => simp [expEq]
    | Float f =>
      cases f with
      | nan => simp [noNaN] at hn
      | num v => simp [expEq, F64.ieeeEq]
    | String s => simp [expEq]
    | Symbol s => simp [expEq]
    | List l =>
      rw [noNaN] at hn
      rw [expEq]
      refine expEqList_refl l fun e he => ?_
      have hse : sizeOf e < sizeOf (Exp.List l) := by
        have h1 : sizeOf e < sizeOf l := List.sizeOf_lt_of_mem he
        simp only [Exp.List.sizeOf_spec]
        omega
      exact ih e (by omega) (noNaNL_mem hn e he)

theorem listOnlyL_mem : ∀ {l : List Exp}, listOnlyL l = true → ∀ e ∈ l, listOnly e = true := by
  intro l
  induction l with
  | nil => intro _ e he; cases he
  | cons a l ih =>
    intro h e he
    rw [listOnlyL, Bool.and_eq_true] at h
    cases he with
    | head => exact h.1
    | tail _ ht => exact ih h.2 e ht

/-- Trees of nested empty-able lists are good trees. -/
theorem listOnly_good : ∀ (n : Nat) (t : Exp), sizeOf t ≤ n → listOnly t = true →
    goodTree t = true := by
  intro n
  induction n with
  | zero =>
    intro t hs
    cases t <;> simp_all
  | succ n ih =>
    intro t hs hl
    cases t with
    | Bool b => simp [listOnly] at hl
    | Char c => simp [listOnly] at hl
    | Int i => simp [listOnly] at hl
    | Float f => simp [listOnly] at hl
    | String s => simp [listOnly] at hl
    | Symbol s => simp [listOnly] at hl
    | List l =>
      rw [listOnly] at hl
      rw [goodTree]
      induction l with
      | nil => rfl
      | cons e l2 ihl =>
        rw [goodTreeL, Bool.and_eq_true]
        rw [listOnlyL, Bool.and_eq_true] at hl
        have hse : sizeOf e < sizeOf (Exp.List (e :: l2)) := by
          have h1 : sizeOf e < sizeOf (e :: l2) := List.sizeOf_lt_of_mem (by simp)
          simp only [Exp.List.sizeOf_spec]
          omega
        refine ⟨ih e (by omega) hl.1, ?_⟩
        have hs2 : sizeOf (Exp.List l2) ≤ n + 1 := by
          simp only [Exp.List.sizeOf_spec] at hs ⊢
          cases l2 <;> simp_all <;> omega
        exact ihl hs2 hl.2

theorem parseListGoF_none {f : Nat} {src : List Nat} {o : Nat} {cells : List Exp}
    (h : peek src (skipWS src o) = none) :
    parseListGoF (f + 1) src o cells =
      some (PRErr ⟨"unexpected end of stream (list)", skipWS src o⟩, skipWS src o) := by
  rw [parseListGoF, h]

theorem numDispatch_ne34 {src : List Nat} {o c : Nat} (h : numDispatch src o c = true) :
    ¬(c = 34) := by
  intro hceq
  subst hceq
  simp [numDispatch, isDigit] at h

/-- Evaluation of `parseNumber` once its greedy scan's outcome is known. -/
theorem parseNumber_eval {src : List Nat} {o : Nat} {s : List Nat} {p : Nat}
    (h : parseNumberLoop (src.drop o) o [] = .ok (s, p)) :
    parseNumber src o =
      (match parseI64 s with
       | some i => (PROk (Exp.Int i), p)
       | none =>
         match parseF64 s with
         | some v => (PROk (Exp.Float v), p)
         | none => (PRErr ⟨"invalid number format", p⟩, p)) := by
  rw [parseNumber, h]

/-- Claim C1, counterexample: the tree `Float(1.0)` contains no Bool or
Char variant and no String value at all, yet parsing the printer's output
of it yields `Int(1)` (Rust's `Display` prints the integral double `1.0`
as `1`, and the number tokenizer parses `1` as a signed 64-bit integer
first), which is not structurally equal to `Float(1.0)`. -/
theorem claim_C1_counterexample :
    fromSExp (expToString (Exp.Float (F64.num 1))) = PROk (Exp.Int 1) ∧
    expEq (Exp.Int 1) (Exp.Float (F64.num 1)) = false :=
  ⟨rfl, rfl⟩

/-- Claim C1, amended: for every expression tree that contains no Bool,
Char, or Float variant anywhere, whose Int values lie in the signed 64-bit
range (automatic for `i64`), whose String values contain no embedded
double-quote byte, and whose Symbol values are nonempty, start with an
alphabetic or operator byte, continue only with alphabetic, operator or
digit bytes, and do not start with `+`/`-` followed by a digit, parsing
the printer's output of that tree succeeds and yields the original tree
(in particular a structurally equal one). -/
theorem claim_C1 (t : Exp) (hg : goodTree t = true) :
    fromSExp (expToString t) = PROk t := by
  have h := fromSExp_print [] t [] rfl hg rfl
  simpa using h

theorem claim_C1_witness :
    goodTree (Exp.List [Exp.Int 1, Exp.Symbol [97, 98]]) = true ∧
    fromSExp (expToString (Exp.List [Exp.Int 1, Exp.Symbol [97, 98]])) =
      PROk (Exp.List [Exp.Int 1, Exp.Symbol [97, 98]]) :=
  ⟨by decide, claim_C1 (Exp.List [Exp.Int 1, Exp.Symbol [97, 98]]) (by decide)⟩

/-- Claim C2: whenever the number tokenizer's greedy scan completes with
accumulated text `s`, the result is obtained by trying `s` as a signed
64-bit integer (-> `Int`), then as a 64-bit float (-> `Float`), else the
"invalid number format" error; and every optionally signed, optionally
zero-padded, in-range integer literal followed by a separator or end of
input parses to `Int` with its exact value. -/
theorem claim_C2 :
    (∀ (src : List Nat) (o : Nat) (s : List Nat) (p : Nat),
      parseNumberLoop (src.drop o) o [] = .ok (s, p) →
      parseNumber src o =
        (match parseI64 s with
         | some i => (PROk (Exp.Int i), p)
         | none =>
           match parseF64 s with
           | some v => (PROk (Exp.Float v), p)
           | none => (PRErr ⟨"invalid number format", p⟩, p))) ∧
    (∀ (sgn : List Nat) (sg : Int) (ds rest : List Nat),
      (sgn = [] ∧ sg = 1) ∨ (sgn = [43] ∧ sg = 1) ∨ (sgn = [45] ∧ sg = -1) →
      ds ≠ [] → ds.all isDigit = true →
      -(2 ^ 63) ≤ sg * (digitsVal ds : Int) → sg * (digitsVal ds : Int) < 2 ^ 63 →
      sepStop rest = true →
      parseNumber (sgn ++ ds ++ rest) 0 =
        (PROk (Exp.Int (sg * (digitsVal ds : Int))), (sgn ++ ds).length)) := by
  constructor
  · intro src o s p h
    exact parseNumber_eval h
  · intro sgn sg ds rest hsgn hne hdig h1 h2 hsep
    have hall : (sgn ++ ds).all numChar = true := by
      rw [List.all_append, Bool.and_eq_true]
      constructor
      · rcases hsgn with ⟨rfl, _⟩ | ⟨rfl, _⟩ | ⟨rfl, _⟩ <;> decide
      · rw [List.all_eq_true] at hdig ⊢
        intro x hx
        exact digit_numChar (hdig x hx)
    have hsplit : splitSign (sgn ++ ds) = (sg, ds) := by
      rcases hsgn with ⟨rfl, rfl⟩ | ⟨rfl, rfl⟩ | ⟨rfl, rfl⟩
      · cases ds with
        | nil => exact absurd rfl hne
        | cons d ds2 =>
          have hd : isDigit d = true := by
            rw [List.all_cons, Bool.and_eq_true] at hdig
            exact hdig.1
          rw [isDigit_eq] at hd
          rw [List.nil_append, splitSign]
          rw [if_neg (by omega), if_neg (by omega)]
      · simp [splitSign]
      · simp [splitSign]
    have hscan : parseNumberLoop ((sgn ++ ds ++ rest).drop 0) 0 [] =
        .ok (sgn ++ ds, (sgn ++ ds).length) := by
      rw [List.drop_zero]
      have hn := numScan_ok (sgn ++ ds) 0 [] rest hall hsep
      rw [List.nil_append, Nat.zero_add] at hn
      exact hn
    rw [parseNumber_eval hscan, parseI64_eval hsplit hne hdig, if_pos ⟨h1, h2⟩]

theorem claim_C2_witness :
    parseNumber ([45] ++ [48, 48, 49, 50, 51, 52] ++ []) 0 =
      (PROk (Exp.Int (-1 * (digitsVal [48, 48, 49, 50, 51, 52] : Int))),
        ([45] ++ [48, 48, 49, 50, 51, 52]).length) :=
  claim_C2.2 [45] (-1) [48, 48, 49, 50, 51, 52] []
    (Or.inr (Or.inr ⟨rfl, rfl⟩)) (by decide) (by decide) (by decide) (by decide) rfl

/-- Claim C3: the dispatcher routes to the number tokenizer exactly on a
digit, or on `+`/`-` immediately followed by a digit; a `-` not followed
by a digit goes to the symbol tokenizer and is wrapped as a Symbol; hence
`-5` parses to `Int(-5)` and `->` to `Symbol("->")`. -/
theorem claim_C3 :
    (∀ (src : List Nat) (o c : Nat), peek src o = some c → numDispatch src o c = true →
      parseToken src o = parseNumber src o) ∧
    (∀ (src : List Nat) (o : Nat), peek src o = some 45 →
      (∀ c2, peek src (o + 1) = some c2 → isDigit c2 = false) →
      parseToken src o = symbolResult src o) ∧
    fromSExp [45, 53] = PROk (Exp.Int (-5)) ∧
    fromSExp [45, 62] = PROk (Exp.Symbol [45, 62]) := by
  refine ⟨?_, ?_, rfl, rfl⟩
  · intro src o c hp hnum
    rw [parseToken, show 4 * src.length + 4 = (4 * src.length + 3) + 1 from rfl,
      parseTokenF_some hp, if_neg (numDispatch_ne34 hnum), if_pos hnum]
    rfl
  · intro src o hp hnext
    have hnum : numDispatch src o 45 = false := by
      refine numDispatch_false (by decide) ?_
      intro _
      cases hp2 : peek src (o + 1) with
      | none => trivial
      | some c2 => exact hnext c2 hp2
    rw [parseToken, show 4 * src.length + 4 = (4 * src.length + 3) + 1 from rfl,
      parseTokenF_some hp, if_neg (by decide), if_neg (bool_ne_true hnum),
      if_pos (by decide)]
    rfl

theorem claim_C3_witness :
    parseToken [49] 0 = parseNumber [49] 0 ∧ parseToken [45] 0 = symbolResult [45] 0 :=
  ⟨claim_C3.1 [49] 0 49 rfl (by decide),
   claim_C3.2.1 [45] 0 rfl (fun c2 h => Option.noConfusion h)⟩

/-- Claim C4: the list parser's element loop skips whitespace, then: on
`)` it consumes it and returns the `List` of the elements collected so far
in parse order; at end of input it errors; otherwise it parses one element
through the dispatcher, appends it, and repeats.  Consequently `()` parses
to the empty `List`, and parsing the print of an arbitrarily nested pure
list tree reproduces it exactly — element count and left-to-right order at
every nesting level. -/
theorem claim_C4 :
    fromSExp [40, 41] = PROk (Exp.List []) ∧
    (∀ (f : Nat) (src : List Nat) (o : Nat) (cells : List Exp),
      peek src (skipWS src o) = some 41 →
      parseListGoF (f + 1) src o cells = some (PROk (Exp.List cells), skipWS src o + 1)) ∧
    (∀ (f : Nat) (src : List Nat) (o : Nat) (cells : List Exp),
      peek src (skipWS src o) = none →
      parseListGoF (f + 1) src o cells =
        some (PRErr ⟨"unexpected end of stream (list)", skipWS src o⟩, skipWS src o)) ∧
    (∀ (f : Nat) (src : List Nat) (o : Nat) (cells : List Exp) (c : Nat) (e : Exp) (o2 : Nat),
      peek src (skipWS src o) = some c → c ≠ 41 →
      parseTokenF f src (skipWS src o) = some (PROk e, o2) →
      parseListGoF (f + 1) src o cells = parseListGoF f src o2 (cells ++ [e])) ∧
    (∀ t : Exp, listOnly t = true → fromSExp (expToString t) = PROk t) := by
  refine ⟨rfl, ?_, ?_, ?_, ?_⟩
  · intro f src o cells hp
    rw [parseListGoF_some hp, if_pos rfl]
  · intro f src o cells hp
    exact parseListGoF_none hp
  · intro f src o cells c e o2 hp hne htok
    rw [parseListGoF_some hp, if_neg hne, htok]
  · intro t hl
    have h := fromSExp_print [] t [] rfl (listOnly_good (sizeOf t) t (Nat.le_refl _) hl) rfl
    simpa using h

theorem claim_C4_witness :
    listOnly (Exp.List [Exp.List [], Exp.List [Exp.List []]]) = true ∧
    fromSExp (expToString (Exp.List [Exp.List [], Exp.List [Exp.List []]])) =
      PROk (Exp.List [Exp.List [], Exp.List [Exp.List []]]) :=
  ⟨by decide, claim_C4.2.2.2.2 (Exp.List [Exp.List [], Exp.List [Exp.List []]]) (by decide)⟩

/-- Claim C5: when the number tokenizer's scan, after any run of numeric
characters, meets a byte that is neither numeric nor a separator, it
returns an error whose reported offset is exactly the offset of that
offending byte. -/
theorem claim_C5 (src : List Nat) (o : Nat) (body : List Nat) (c : Nat) (rest : List Nat)
    (hd : src.drop o = body ++ c :: rest)
    (hbody : body.all numChar = true) (hc : numChar c = false)
    (hsep : isSeparator c = false) :
    parseNumber src o =
      (PRErr ⟨"Unexpected end of stream (sign)", o + body.length⟩, o + body.length) := by
  rw [parseNumber, hd, numScan_err body o [] c rest hbody hc hsep]

theorem claim_C5_witness :
    parseNumber [45, 49, 50, 51, 52, 97] 0 =
      (PRErr ⟨"Unexpected end of stream (sign)", 5⟩, 5) := by
  have h := claim_C5 [45, 49, 50, 51, 52, 97] 0 [45, 49, 50, 51, 52] 97 []
    rfl (by decide) (by decide) (by decide)
  simpa using h

/-- Claim C6: the string tokenizer errors unless the byte at the cursor is
`"`; on a quoted run it returns exactly the bytes strictly between the two
quotes, verbatim (no escape processing — a backslash byte is kept as-is);
and if no closing quote exists before end of input it returns the
end-of-stream error. -/
theorem claim_C6 :
    (∀ (src : List Nat) (o : Nat), peek src o ≠ some 34 →
      parseString src o = (PRErr ⟨"Expected \"", o⟩, o)) ∧
    (∀ (src : List Nat) (o : Nat) (s rest : List Nat),
      src.drop o = 34 :: (s ++ 34 :: rest) → s.all (fun c => c ≠ 34) = true →
      parseString src o = (PROk s, o + s.length + 2)) ∧
    (∀ (src : List Nat) (o : Nat) (s : List Nat),
      src.drop o = 34 :: s → s.all (fun c => c ≠ 34) = true →
      parseString src o =
        (PRErr ⟨"Unexpected end of stream (string)", o + s.length + 1⟩,
          o + s.length + 1)) := by
  refine ⟨?_, ?_, ?_⟩
  · intro src o hne
    cases hp : peek src o with
    | none => rw [parseString, hp]
    | some c =>
      have hc : ¬(c = 34) := by
        intro hceq
        exact hne (hceq ▸ hp)
      rw [parseString_some hp, if_neg hc]
  · intro src o s rest hd hs
    exact parseString_print hd hs
  · intro src o s hd hs
    have hp : peek src o = some 34 := by
      rw [peek_eq_head_drop, hd]
      rfl
    have hd2 : src.drop (o + 1) = s := drop_succ_of_drop_cons hd
    rw [parseString_some hp, if_pos rfl, hd2, stringLoop_eoi s (o + 1) [] hs]
    have harith : o + 1 + s.length = o + s.length + 1 := by omega
    rw [harith]

theorem claim_C6_witness :
    parseString [34, 49, 50, 51, 52, 34] 0 = (PROk [49, 50, 51, 52], 6) := by
  have h := claim_C6.2.1 [34, 49, 50, 51, 52, 34] 0 [49, 50, 51, 52] [] rfl (by decide)
  simpa using h

/-- Claim C7, counterexample: `12` is a complete valid expression parsing
to `Int(12)`, but appending the trailing byte `a` makes the whole parse
fail — the number tokenizer rejects the byte it finds after the digits —
so a complete valid expression prefix does not make the parse succeed
regardless of trailing bytes. -/
theorem claim_C7_counterexample :
    fromSExp [49, 50] = PROk (Exp.Int 12) ∧
    fromSExp [49, 50, 97] =
      PRErr ⟨"Unexpected end of stream (sign)", 2⟩ :=
  ⟨rfl, rfl⟩

/-- Claim C7, amended: the top-level entry point skips leading whitespace,
parses exactly one expression and never examines bytes past it, provided
the first trailing byte (if any) is a separator that is not also an
operator character (whitespace, `(`, `)`, `{`, `}`, `,` or `"`): for every
good tree, any leading whitespace and any such trailing bytes, parsing
yields exactly that tree.  (A trailing byte that can extend the final
token — as in `12a` — changes the result, so the unrestricted claim
fails.) -/
theorem claim_C7 (ws : List Nat) (t : Exp) (rest : List Nat)
    (hws : ws.all isWS = true) (hg : goodTree t = true)
    (hrest : stopBytes rest = true) :
    fromSExp (ws ++ expToString t ++ rest) = PROk t :=
  fromSExp_print ws t rest hws hg hrest

theorem claim_C7_witness :
    fromSExp ([32] ++ expToString (Exp.Int 5) ++ [41, 120, 121]) = PROk (Exp.Int 5) :=
  claim_C7 [32] (Exp.Int 5) [41, 120, 121] (by decide) (by decide) (by decide)

/-- Claim C8: whatever the input, a successful top-level parse never
contains a `Bool` or `Char` variant anywhere in the resulting tree. -/
theorem claim_C8 (src : List Nat) (e : Exp) (h : fromSExp src = PROk e) :
    noBoolChar e = true := by
  simp only [fromSExp] at h
  rw [parseToken] at h
  rcases ht : parseTokenF (4 * src.length + 4) src (skipWS src 0) with _ | ⟨pr, p⟩
  · rw [ht] at h
    injection h
  · rw [ht] at h
    cases pr with
    | PROk r =>
      have hre : r = e := by
        injection h
      exact hre ▸ (noBC_aux (4 * src.length + 4)).1 src (skipWS src 0) r p ht
    | PRErr err =>
      injection h

theorem claim_C8_witness : noBoolChar (Exp.Int (-5)) = true :=
  claim_C8 [45, 53] (Exp.Int (-5)) rfl

/-- Claim C9: the apostrophe (byte 39) is classified both as an operator
character and as a separator; consequently the symbol tokenizer accepts it
inside a symbol (`don't` is one Symbol token of 5 bytes), while the number
tokenizer treats it as a terminator (`12'` stops before the apostrophe and
yields `Int(12)` having consumed 2 bytes). -/
theorem claim_C9 :
    isOp 39 = true ∧ isSeparator 39 = true ∧
    parseSymbol [100, 111, 110, 39, 116] 0 = (PROk [100, 111, 110, 39, 116], 5) ∧
    parseNumber [49, 50, 39] 0 = (PROk (Exp.Int 12), 2) :=
  ⟨rfl, rfl, rfl, rfl⟩

/-- Claim C10: structural equality compares `Float` values by IEEE 64-bit
equality, so it is not reflexive — a NaN `Float` is unequal to itself —
while on every tree containing no NaN `Float` it is reflexive. -/
theorem claim_C10 :
    expEq (Exp.Float F64.nan) (Exp.Float F64.nan) = false ∧
    (∀ e : Exp, noNaN e = true → expEq e e = true) :=
  ⟨rfl, fun e hn => expEq_refl_aux (sizeOf e) e (Nat.le_refl _) hn⟩

theorem claim_C10_witness :
    expEq (Exp.List [Exp.Int 3, Exp.Float (F64.num 2)])
      (Exp.List [Exp.Int 3, Exp.Float (F64.num 2)]) = true :=
  claim_C10.2 (Exp.List [Exp.Int 3, Exp.Float (F64.num 2)]) (by decide)
